import Mathlib

/-!
Verification of the signal-analysis core of SpeechFeatureVectorizer.

The Python source (src/SpeechFeatureVectorizer.py) orchestrates librosa
primitives.  Everything implemented in the source itself (the band-limit
masking, the intensity / HNR / CoG formulas, segment slicing, interval
filtering, output formatting) is embedded directly from the code.  The
librosa primitives (STFT/ISTFT, frame RMS, harmonic separation, ZCR) are
external: the short-time transform is kept abstract as a pair of functions,
and frame-based energy estimation is modelled from the specification's
contract (§4.1, §4.4), which leaves framing constants implementation-chosen.

Signals and frequencies are modelled as exact rationals; the logarithmic
feature formulas live in ℝ.
-/

/-! ## Data model -/

/-- A complex STFT coefficient, modelled as a (real, imaginary) pair of
rationals. -/
abbrev Cplx := ℚ × ℚ

/-- An STFT frame: rows indexed by frequency bin, each row a list of
per-time-frame complex coefficients. -/
abbrev Frame := List (List Cplx)

/-- Abstract short-time spectral transform pair (librosa's stft/istft are
external to the repository; only their use is verified). -/
structure SpectralTransform where
  forward : List ℚ → ℕ → Frame
  inverse : Frame → List ℚ

/-- A labelled annotation interval: start time, end time (seconds) and
label text. -/
structure TgInterval where
  start_time : ℚ
  end_time : ℚ
  text : String

/-- One feature tuple, the unit of output of `extract_features`. -/
structure FeatureTuple where
  participant : String
  label : String
  intensity : ℝ
  hnr : ℝ
  duration : ℚ
  zcr : ℚ
  cog : ℝ
  cog_log : ℝ

/-! ## Band limiter (from `band_limit_segment`) -/

/-- `librosa.fft_frequencies(sr, n_fft)`: bin-centre frequencies
`k * sr / n_fft` for `k = 0 .. n_fft/2`. -/
def fft_frequencies (sr : ℚ) (n_fft : ℕ) : List ℚ :=
  (List.range (n_fft / 2 + 1)).map (fun k => (k : ℚ) * sr / (n_fft : ℚ))

/-- Replace every coefficient of a bin row by zero
(`stft_complex[~freq_mask, :] = 0.0`). -/
def zero_row (row : List Cplx) : List Cplx :=
  row.map (fun _ => ((0 : ℚ), (0 : ℚ)))

/-- The masking step of `band_limit_segment`: keep rows whose frequency-axis
value is `≤ cutoff`, zero the others. -/
def mask_stft (freqs : List ℚ) (cutoff : ℚ) (stft : Frame) : Frame :=
  (freqs.zip stft).map (fun p => if p.1 ≤ cutoff then p.2 else zero_row p.2)

/-- The transform window used by `band_limit_segment`:
`n_fft_value = min(2048, len(segment))`. -/
def bl_window (segment : List ℚ) : ℕ :=
  min 2048 segment.length

/-- `band_limit_segment(segment, sr, lp_cutoff)` from the source: forward
transform with window `min(2048, len(segment))`, zero all bins above
`min(lp_cutoff, sr/2)`, inverse transform. -/
def band_limit_segment (T : SpectralTransform) (segment : List ℚ)
    (sr lp_cutoff : ℚ) : List ℚ :=
  let n_fft_value := bl_window segment
  let stft_complex := T.forward segment n_fft_value
  let freqs := fft_frequencies sr n_fft_value
  let nyquist := sr / 2
  let effective_cutoff := min lp_cutoff nyquist
  T.inverse (mask_stft freqs effective_cutoff stft_complex)

/-- Transform used by concrete instantiations: each bin row carries the
constant coefficient 1, and the inverse returns the empty signal. -/
def trivialT : SpectralTransform where
  forward := fun _ n => List.replicate (n / 2 + 1) [((1 : ℚ), (0 : ℚ))]
  inverse := fun _ => []

/-! ## Frame energy estimator (modelled from the spec, §4.4) -/

/-- Modelled from the spec: the short-time framing used by the Frame Energy
Estimator (`librosa.feature.rms` is external to the repository; §4.4 fixes
only that the signal is partitioned into short overlapping frames with
stable, deterministic constants — here a 2048-sample window with a
512-sample hop). -/
def signalFrames (signal : List ℚ) : List (List ℚ) :=
  (List.range ((signal.length + 511) / 512)).map
    (fun i => (signal.drop (i * 512)).take 2048)

/-- Mean of a list of reals; the empty list yields `0`. -/
noncomputable def meanR (l : List ℝ) : ℝ :=
  l.sum / l.length

/-- Mean of a list of rationals; the empty list yields `0`. -/
def meanQ (l : List ℚ) : ℚ :=
  l.sum / (l.length : ℚ)

/-- Mean square of one frame, as an exact rational; empty frame yields 0. -/
def mean_square (frame : List ℚ) : ℚ :=
  (frame.map (fun x => x ^ 2)).sum / (frame.length : ℚ)

/-- Root-mean-square amplitude of one frame. -/
noncomputable def frame_rms (frame : List ℚ) : ℝ :=
  Real.sqrt ((mean_square frame : ℚ) : ℝ)

/-- Modelled from the spec: `rms_energy(signal)` (§4.4) — RMS per frame,
averaged over frames; empty signal yields `0`. -/
noncomputable def rms_energy (signal : List ℚ) : ℝ :=
  meanR ((signalFrames signal).map frame_rms)

/-! ## Intensity and HNR formulas (from `extract_features`) -/

/-- The intensity formula of `extract_features`:
`10*log10(rms_lp)` when `rms_lp > 0`, else the `-80` dB silence floor. -/
noncomputable def intensity_of (r : ℝ) : ℝ :=
  if r > 0 then 10 * Real.logb 10 r else -80

/-- The floor applied to each RMS before the HNR division:
`if rms < 1e-10: rms = 1e-10`. -/
noncomputable def floor10 (r : ℝ) : ℝ :=
  if r < 1e-10 then 1e-10 else r

/-- The HNR formula of `extract_features`: floor both RMS values at `1e-10`,
take `10*log10` of their ratio, clamp the result to at most `20` dB. -/
noncomputable def hnr_of (rms_harm rms_noise : ℝ) : ℝ :=
  let h := floor10 rms_harm
  let n := floor10 rms_noise
  let v := 10 * Real.logb 10 (h / n)
  if v > 20 then 20 else v

/-! ## Spectral centroid (from `extract_features`) -/

/-- Magnitude of one STFT coefficient (`np.abs` on a complex value). -/
noncomputable def cmag (z : Cplx) : ℝ :=
  Real.sqrt (((z.1 ^ 2 + z.2 ^ 2 : ℚ) : ℝ))

/-- Per-bin power: the square of the time-mean magnitude
(`np.mean(filtered_stft, axis=1)**2`). -/
noncomputable def bin_power (row : List Cplx) : ℝ :=
  (meanR (row.map cmag)) ^ 2

/-- The transform window used for the centroid:
`n_fft_value = min(512, len(segment))`. -/
def cog_window (segment : List ℚ) : ℕ :=
  min 512 segment.length

/-- The frequency/bin-row pairs kept by the centroid's mask
`(freqs >= min_freq) & (freqs <= effective_max_freq)` with
`effective_max_freq = min(max_freq, sr/2)`. -/
def cog_pairs (T : SpectralTransform) (segment : List ℚ)
    (sr min_freq max_freq : ℚ) : List (ℚ × List Cplx) :=
  let n := cog_window segment
  ((fft_frequencies sr n).zip (T.forward segment n)).filter
    (fun p => decide (min_freq ≤ p.1 ∧ p.1 ≤ min max_freq (sr / 2)))

/-- Total element count of the filtered bin rows
(`filtered_stft.size`). -/
def cog_size (T : SpectralTransform) (segment : List ℚ)
    (sr min_freq max_freq : ℚ) : ℕ :=
  ((cog_pairs T segment sr min_freq max_freq).map (fun p => p.2.length)).sum

/-- Total power over the filtered bins (`np.sum(power_spectrum)`). -/
noncomputable def cog_total (T : SpectralTransform) (segment : List ℚ)
    (sr min_freq max_freq : ℚ) : ℝ :=
  ((cog_pairs T segment sr min_freq max_freq).map (fun p => bin_power p.2)).sum

/-- Frequency-weighted power over the filtered bins
(`np.sum(filtered_freqs * power_spectrum)`). -/
noncomputable def cog_weighted (T : SpectralTransform) (segment : List ℚ)
    (sr min_freq max_freq : ℚ) : ℝ :=
  ((cog_pairs T segment sr min_freq max_freq).map
    (fun p => ((p.1 : ℝ)) * bin_power p.2)).sum

/-- The centroid computation of `extract_features`: `0.0` when the filtered
array is empty or total power is not positive, else the weighted mean. -/
noncomputable def cog_of (T : SpectralTransform) (segment : List ℚ)
    (sr min_freq max_freq : ℚ) : ℝ :=
  if cog_size T segment sr min_freq max_freq = 0 then 0
  else if cog_total T segment sr min_freq max_freq ≤ 0 then 0
  else cog_weighted T segment sr min_freq max_freq /
    cog_total T segment sr min_freq max_freq

/-- `cog_log = math.log1p(cog)`, the natural logarithm of `1 + cog`. -/
noncomputable def cog_log_of (cog : ℝ) : ℝ :=
  Real.log (1 + cog)

/-! ## Segment extraction (from `extract_features`) -/

/-- Python `int()` applied to a rational: truncation toward zero. -/
def pyInt (q : ℚ) : ℤ :=
  if 0 ≤ q then ⌊q⌋ else ⌈q⌉

/-- Segment extraction of `extract_features`:
`start_sample = int(start_time * sr)`, `end_sample = int(end_time * sr)`,
`segment = y[start_sample:end_sample]`. -/
def extract_segment (y : List ℚ) (start_time end_time sr : ℚ) : List ℚ :=
  let start_sample := (pyInt (start_time * sr)).toNat
  let end_sample := (pyInt (end_time * sr)).toNat
  (y.take end_sample).drop start_sample

/-- Follows the spec's words (for refinement comparison only): the segment
derived by the conversion `round(time * sample_rate)` claimed in the spec,
with the same half-open slice semantics. -/
def extract_segment_spec (y : List ℚ) (start_time end_time sr : ℚ) : List ℚ :=
  (y.take (round (end_time * sr)).toNat).drop (round (start_time * sr)).toNat

/-! ## Transform contract on degenerate inputs (modelled from the spec) -/

/-- Modelled from the spec: the forward transform contract of §4.1
(librosa's stft is external to the repository).  Windowing is
implementation-internal, represented by an abstract coefficient function
and frame count; the contract fixes the shapes: `n_fft/2 + 1` bin rows,
and an empty frame on a zero-length input instead of an error. -/
def forward_model (coef : ℕ → ℕ → Cplx) (nFrames : ℕ)
    (signal : List ℚ) (n_fft : ℕ) : Frame :=
  if signal.length = 0 then []
  else (List.range (n_fft / 2 + 1)).map (fun b => (List.range nFrames).map (coef b))

/-- Modelled from the spec: the frequency-axis contract of §4.1 — the usual
bin-centre axis, but empty on a zero-length input instead of an error. -/
def freq_axis_model (sr : ℚ) (signal : List ℚ) (n_fft : ℕ) : List ℚ :=
  if signal.length = 0 then [] else fft_frequencies sr n_fft

/-! ## Zero-crossing rate (modelled from the spec, §4.5) -/

/-- Number of adjacent-sample sign changes in one frame. -/
def frame_sign_changes (frame : List ℚ) : ℕ :=
  ((frame.zip frame.tail).filter
    (fun p => decide (p.1 < 0) != decide (p.2 < 0))).length

/-- Fraction of adjacent-sample sign changes in one frame. -/
def frame_zcr (frame : List ℚ) : ℚ :=
  (frame_sign_changes frame : ℚ) / (frame.length : ℚ)

/-- Modelled from the spec: zero-crossing rate (§4.5) —
`librosa.feature.zero_crossing_rate` is external to the repository; the
spec fixes the mean fraction of adjacent-sample sign changes over the
Frame Energy Estimator's framing convention, empty segment giving `0`. -/
def zcr_rate (signal : List ℚ) : ℚ :=
  meanQ ((signalFrames signal).map frame_zcr)

/-- Python `str.strip()`: remove leading and trailing whitespace. -/
def pyStrip (s : String) : String :=
  String.mk
    (((s.toList.dropWhile Char.isWhitespace).reverse.dropWhile
      Char.isWhitespace).reverse)

/-! ## Participant identifier (from `extract_features`) -/

/-- `os.path.basename`: the final path component. -/
def path_basename (p : String) : String :=
  (p.splitOn "/").getLastD ""

/-- The root part of `os.path.splitext`: strip the extension after the last
dot, ignoring any leading dots of the name. -/
def splitext_root (name : String) : String :=
  let cs := name.toList
  let lead := cs.takeWhile (fun c => c == '.')
  let rest : String := String.mk (cs.drop lead.length)
  if rest.toList.contains '.' then
    String.mk lead ++ String.intercalate "." ((rest.splitOn ".").dropLast)
  else name

/-- `participant = os.path.splitext(os.path.basename(wav_file))[0]`. -/
def participant_of (wav_file : String) : String :=
  splitext_root (path_basename wav_file)

/-! ## Feature computer (from `extract_features`) -/

/-- The per-interval body of `extract_features`: slice the segment, band
limit it, and assemble the eight-component feature tuple.  The harmonic
separator (`librosa.effects.harmonic`) is external and abstract; the
residual is the sample-wise difference `segment_lp - harmonic_lp`. -/
noncomputable def compute_features (T : SpectralTransform)
    (harm : List ℚ → List ℚ) (wav_file : String) (y : List ℚ)
    (sr min_freq max_freq lp_cutoff : ℚ) (iv : TgInterval) : FeatureTuple :=
  let segment := extract_segment y iv.start_time iv.end_time sr
  let segment_lp := band_limit_segment T segment sr lp_cutoff
  let harmonic_lp := harm segment_lp
  let residual_lp := List.zipWith (fun a b => a - b) segment_lp harmonic_lp
  { participant := participant_of wav_file
    label := iv.text
    intensity := intensity_of (rms_energy segment_lp)
    hnr := hnr_of (rms_energy harmonic_lp) (rms_energy residual_lp)
    duration := iv.end_time - iv.start_time
    zcr := zcr_rate segment
    cog := cog_of T segment sr min_freq max_freq
    cog_log := cog_log_of (cog_of T segment sr min_freq max_freq) }

/-- The interval loop of `extract_features`: one tuple appended per
interval whose stripped label is non-empty. -/
noncomputable def extract_features (T : SpectralTransform)
    (harm : List ℚ → List ℚ) (wav_file : String) (y : List ℚ) (sr : ℚ)
    (intervals : List TgInterval) (min_freq max_freq lp_cutoff : ℚ) :
    List FeatureTuple :=
  intervals.filterMap (fun iv =>
    if pyStrip iv.text = "" then none
    else some (compute_features T harm wav_file y sr min_freq max_freq
      lp_cutoff iv))

/-! ## Batch output serialization (from `process_directory`) -/

/-- A feature row at the serialization boundary: the numeric fields carry
the exact rational values of the floats being printed. -/
structure FeatureRow where
  participant : String
  word : String
  intensity : ℚ
  hnr : ℚ
  duration : ℚ
  zcr : ℚ
  cog : ℚ
  cog_log : ℚ

/-- Decimal digit characters of a natural number, most significant first;
`0` renders as `"0"`. -/
def natDecimal (n : ℕ) : List Char :=
  if n = 0 then ['0']
  else ((Nat.digits 10 n).map (fun d => Char.ofNat (48 + d))).reverse

/-- The digits after the decimal point: the fractional value, which is
below `10^d`, zero-padded on the left to exactly `d` digits. -/
def fracDigits (d : ℕ) (fp : ℕ) : List Char :=
  List.replicate (d - (Nat.digits 10 fp).length) '0' ++
    ((Nat.digits 10 fp).map (fun x => Char.ofNat (48 + x))).reverse

/-- Fixed-point formatting `f"{q:.df}"` applied to the exact rational value
of the float: round to `d` decimal places and render sign, integer part,
point, and exactly `d` fractional digits. -/
def formatFixed (q : ℚ) (d : ℕ) : String :=
  let scaled : ℤ := round (q * (10 : ℚ) ^ d)
  let sign := if scaled < 0 then "-" else ""
  sign ++ String.mk (natDecimal (scaled.natAbs / 10 ^ d)) ++ "." ++
    String.mk (fracDigits d (scaled.natAbs % 10 ^ d))

/-- The header line written by `process_directory` before any data row. -/
def headerLine : String :=
  "participant\tword\tintensity\thnr\tduration\tzcr\tcog\tcog_log\n"

/-- One data row of `process_directory`: the f-string writing eight
tab-separated fields with precisions 1, 1, 4, 4, 2 and 3. -/
def rowString (r : FeatureRow) : String :=
  r.participant ++ "\t" ++ r.word ++ "\t" ++
    formatFixed r.intensity 1 ++ "\t" ++ formatFixed r.hnr 1 ++ "\t" ++
    formatFixed r.duration 4 ++ "\t" ++ formatFixed r.zcr 4 ++ "\t" ++
    formatFixed r.cog 2 ++ "\t" ++ formatFixed r.cog_log 3 ++ "\n"

/-- Concatenation of the data rows, one per feature tuple, in order. -/
def concatRows (rows : List FeatureRow) : String :=
  rows.foldr (fun r acc => rowString r ++ acc) ""

/-- The writes of `process_directory` into the results file: the header
first, then one appended row per feature tuple. -/
def process_output (rows : List FeatureRow) : String :=
  rows.foldl (fun acc r => acc ++ rowString r) headerLine

/-! ## Helper lemmas -/

lemma mask_stft_getElem? (freqs : List ℚ) (c : ℚ) (stft : Frame) (i : ℕ) :
    (mask_stft freqs c stft)[i]? =
      (freqs[i]?).bind (fun f => (stft[i]?).map
        (fun row => if c < f then zero_row row else row)) := by
  induction freqs generalizing stft i with
  | nil => simp [mask_stft]
  | cons f fs ih =>
    cases stft with
    | nil => simp [mask_stft]
    | cons row rows =>
      cases i with
      | zero =>
        by_cases h : f ≤ c
        · simp [mask_stft, h, not_lt.mpr h]
        · simp [mask_stft, h, not_le.mp h]
      | succ j =>
        have := ih rows j
        simpa [mask_stft, List.zip_cons_cons] using this

lemma signalFrames_mem_of_mem {signal : List ℚ} {frame : List ℚ} {x : ℚ}
    (hf : frame ∈ signalFrames signal) (hx : x ∈ frame) : x ∈ signal := by
  rcases List.mem_map.mp hf with ⟨i, _, rfl⟩
  exact List.mem_of_mem_drop (List.take_subset _ _ hx)

lemma frame_rms_zero {frame : List ℚ} (h : ∀ x ∈ frame, x = 0) :
    frame_rms frame = 0 := by
  have hsum : (frame.map (fun x => x ^ 2)).sum = 0 := by
    apply List.sum_eq_zero
    intro y hy
    rcases List.mem_map.mp hy with ⟨q, hq, hq2⟩
    rw [← hq2, h q hq]
    norm_num
  rw [frame_rms, mean_square, hsum, zero_div]
  norm_num

lemma rms_energy_zero {signal : List ℚ} (h : ∀ x ∈ signal, x = 0) :
    rms_energy signal = 0 := by
  have hmap : ∀ r ∈ (signalFrames signal).map frame_rms, r = 0 := by
    intro r hr
    rcases List.mem_map.mp hr with ⟨frame, hf, rfl⟩
    exact frame_rms_zero (fun x hx => h x (signalFrames_mem_of_mem hf hx))
  rw [rms_energy, meanR, List.sum_eq_zero hmap, zero_div]

lemma floor10_pos (r : ℝ) : 0 < floor10 r := by
  rw [floor10]
  split
  · norm_num
  · linarith [not_lt.mp (by assumption : ¬ r < 1e-10)]

lemma cog_total_of_size_zero (T : SpectralTransform) (segment : List ℚ)
    (sr min_freq max_freq : ℚ)
    (h : cog_size T segment sr min_freq max_freq = 0) :
    cog_total T segment sr min_freq max_freq = 0 := by
  apply List.sum_eq_zero
  intro y hy
  rcases List.mem_map.mp hy with ⟨p, hp, hpy⟩
  have hlen : p.2.length = 0 := by
    have := List.sum_eq_zero_iff.mp h
    exact this _ (List.mem_map.mpr ⟨p, hp, rfl⟩)
  have hnil : p.2 = [] := List.eq_nil_of_length_eq_zero hlen
  rw [← hpy, hnil]
  simp [bin_power, meanR]

lemma extract_features_eq_filter_map (T : SpectralTransform)
    (harm : List ℚ → List ℚ) (wav_file : String) (y : List ℚ) (sr : ℚ)
    (intervals : List TgInterval) (min_freq max_freq lp_cutoff : ℚ) :
    extract_features T harm wav_file y sr intervals min_freq max_freq
        lp_cutoff =
      (intervals.filter (fun iv => !(pyStrip iv.text == ""))).map
        (compute_features T harm wav_file y sr min_freq max_freq
          lp_cutoff) := by
  induction intervals with
  | nil => rfl
  | cons iv ivs ih =>
    by_cases h : pyStrip iv.text = ""
    · simp [extract_features, List.filterMap_cons, h, List.filter_cons] at ih ⊢
      exact ih
    · simp [extract_features, List.filterMap_cons, h, List.filter_cons] at ih ⊢
      exact ih

/-! ## Claim theorems -/

/-- C1: `band_limit` computes the effective cutoff `min(cutoff_hz, sr/2)`
and, before the inverse transform, zeroes exactly the STFT bins whose
frequency-axis value strictly exceeds it, leaving the others unchanged. -/
theorem band_limit_masks_above_effective_cutoff
    (T : SpectralTransform) (segment : List ℚ) (sr lp_cutoff : ℚ)
    (hlen : (T.forward segment (bl_window segment)).length =
      (fft_frequencies sr (bl_window segment)).length) :
    band_limit_segment T segment sr lp_cutoff =
      T.inverse (mask_stft (fft_frequencies sr (bl_window segment))
        (min lp_cutoff (sr / 2)) (T.forward segment (bl_window segment))) ∧
    (mask_stft (fft_frequencies sr (bl_window segment))
        (min lp_cutoff (sr / 2)) (T.forward segment (bl_window segment))).length
      = (T.forward segment (bl_window segment)).length ∧
    ∀ i : ℕ,
      (mask_stft (fft_frequencies sr (bl_window segment))
          (min lp_cutoff (sr / 2)) (T.forward segment (bl_window segment)))[i]? =
        ((fft_frequencies sr (bl_window segment))[i]?).bind
          (fun f => ((T.forward segment (bl_window segment))[i]?).map
            (fun row => if min lp_cutoff (sr / 2) < f then zero_row row else row)) := by
  refine ⟨rfl, ?_, fun i => mask_stft_getElem? _ _ _ i⟩
  simp [mask_stft, List.length_zip, hlen]

theorem band_limit_masks_above_effective_cutoff_witness :
    ((trivialT.forward [1, 2] (bl_window [1, 2])).length =
      (fft_frequencies 10 (bl_window [1, 2])).length) ∧
    (mask_stft (fft_frequencies 10 (bl_window [1, 2])) (min 3 (10 / 2))
        (trivialT.forward [1, 2] (bl_window [1, 2])))[1]? =
      ((fft_frequencies 10 (bl_window [1, 2]))[1]?).bind
        (fun f => ((trivialT.forward [1, 2] (bl_window [1, 2]))[1]?).map
          (fun row => if min (3 : ℚ) (10 / 2) < f then zero_row row else row)) := by
  have h : (trivialT.forward [1, 2] (bl_window [1, 2])).length =
      (fft_frequencies 10 (bl_window [1, 2])).length := by decide
  exact ⟨h,
    (band_limit_masks_above_effective_cutoff trivialT [1, 2] 10 3 h).2.2 1⟩

/-- C2: intensity is `10*log10(r)` for positive mean frame RMS `r` of the
band-limited segment, and exactly `-80` dB when `r` is not positive — in
particular when the band-limited segment is all-zero. -/
theorem intensity_formula_and_silence_floor
    (T : SpectralTransform) (segment : List ℚ) (sr lp : ℚ) (r : ℝ)
    (hz : ∀ x ∈ band_limit_segment T segment sr lp, x = 0) :
    (0 < r → intensity_of r = 10 * Real.logb 10 r) ∧
    (¬ 0 < r → intensity_of r = -80) ∧
    intensity_of (rms_energy (band_limit_segment T segment sr lp)) = -80 := by
  refine ⟨fun hr => if_pos hr, fun hr => if_neg hr, ?_⟩
  rw [rms_energy_zero hz, intensity_of]
  norm_num

theorem intensity_formula_and_silence_floor_witness :
    (∀ x ∈ band_limit_segment trivialT [1] 10 5, x = 0) ∧
    intensity_of (rms_energy (band_limit_segment trivialT [1] 10 5)) = -80 := by
  have hz : ∀ x ∈ band_limit_segment trivialT [1] 10 5, x = 0 := by
    intro x hx
    simp [band_limit_segment, trivialT] at hx
  exact ⟨hz,
    (intensity_formula_and_silence_floor trivialT [1] 10 5 1 hz).2.2⟩

/-- C3: HNR is `10*log10(rms_h/rms_n)` with both operands floored at
`1e-10`; the result never exceeds `20` dB, there is no lower clamp (any
value `≤ 20` passes through unchanged), and identically floored components
give exactly `0`. -/
theorem hnr_floored_and_clamped (a b : ℝ) :
    hnr_of a b ≤ 20 ∧
    (10 * Real.logb 10 (floor10 a / floor10 b) ≤ 20 →
      hnr_of a b = 10 * Real.logb 10 (floor10 a / floor10 b)) ∧
    (floor10 a = floor10 b → hnr_of a b = 0) := by
  refine ⟨?_, fun hle => ?_, fun heq => ?_⟩
  · rw [hnr_of]
    split
    · exact le_refl 20
    · exact le_of_not_lt (by assumption)
  · exact if_neg (not_lt.mpr hle)
  · have hb : floor10 b ≠ 0 := ne_of_gt (floor10_pos b)
    have hratio : floor10 a / floor10 b = 1 := by
      rw [heq]
      exact div_self hb
    rw [hnr_of]
    simp only [hratio, Real.logb_one, mul_zero]
    norm_num

theorem hnr_floored_and_clamped_witness :
    (10 * Real.logb 10 (floor10 0 / floor10 0) ≤ 20) ∧
    (floor10 (0 : ℝ) = floor10 0) ∧
    hnr_of 0 0 = 0 := by
  have heq : floor10 (0 : ℝ) = floor10 0 := rfl
  have h0 : floor10 (0 : ℝ) / floor10 0 = 1 :=
    div_self (ne_of_gt (floor10_pos 0))
  have hle : 10 * Real.logb 10 (floor10 (0 : ℝ) / floor10 0) ≤ 20 := by
    rw [h0, Real.logb_one]
    norm_num
  exact ⟨hle, heq, (hnr_floored_and_clamped 0 0).2.2 heq⟩

/-- C4: the centroid uses window `min(512, len(segment))`, keeps exactly the
bins with frequency in `[min_freq, min(max_freq, sr/2)]`, and equals the
power-weighted mean frequency `cog_weighted / cog_total` (per-bin power
being the squared time-mean magnitude) when the filtered bin set is
non-empty and total power is positive, and `0.0` otherwise. -/
theorem cog_weighted_mean_cases (T : SpectralTransform) (segment : List ℚ)
    (sr min_freq max_freq : ℚ) :
    (cog_pairs T segment sr min_freq max_freq ≠ [] →
      0 < cog_total T segment sr min_freq max_freq →
      cog_of T segment sr min_freq max_freq =
        cog_weighted T segment sr min_freq max_freq /
          cog_total T segment sr min_freq max_freq) ∧
    (cog_pairs T segment sr min_freq max_freq = [] →
      cog_of T segment sr min_freq max_freq = 0) ∧
    (cog_total T segment sr min_freq max_freq ≤ 0 →
      cog_of T segment sr min_freq max_freq = 0) ∧
    (∀ p : ℚ × List Cplx,
      p ∈ cog_pairs T segment sr min_freq max_freq ↔
        p ∈ (fft_frequencies sr (cog_window segment)).zip
              (T.forward segment (cog_window segment)) ∧
          min_freq ≤ p.1 ∧ p.1 ≤ min max_freq (sr / 2)) := by
  refine ⟨fun _ htot => ?_, fun hnil => ?_, fun htot => ?_, fun p => ?_⟩
  · have hsz : cog_size T segment sr min_freq max_freq ≠ 0 := by
      intro h0
      have := cog_total_of_size_zero T segment sr min_freq max_freq h0
      rw [this] at htot
      exact lt_irrefl 0 htot
    rw [cog_of, if_neg hsz, if_neg (not_le.mpr htot)]
  · have hsz : cog_size T segment sr min_freq max_freq = 0 := by
      rw [cog_size, hnil]
      rfl
    rw [cog_of, if_pos hsz]
  · by_cases hsz : cog_size T segment sr min_freq max_freq = 0
    · rw [cog_of, if_pos hsz]
    · rw [cog_of, if_neg hsz, if_pos htot]
  · rw [cog_pairs, List.mem_filter]
    simp only [decide_eq_true_eq]

theorem cog_weighted_mean_cases_witness :
    cog_pairs trivialT [1, 2, 3] 10 1 0 = [] ∧
    cog_of trivialT [1, 2, 3] 10 1 0 = 0 := by
  have hnil : cog_pairs trivialT [1, 2, 3] 10 1 0 = [] := by
    simp only [cog_pairs, cog_window, fft_frequencies, trivialT]
    norm_num [List.range_succ, List.filter]
  exact ⟨hnil, (cog_weighted_mean_cases trivialT [1, 2, 3] 10 1 0).2.1 hnil⟩

/-- C5: `cog_log` is `ln(1 + cog)`; it is strictly increasing on the
computed (non-negative) centroid values and vanishes exactly at
`cog = 0`. -/
theorem cog_log_monotone_and_zero (a b : ℝ) (ha : 0 ≤ a) (hab : a < b) :
    cog_log_of a = Real.log (1 + a) ∧
    cog_log_of a < cog_log_of b ∧
    (cog_log_of a = 0 ↔ a = 0) ∧
    cog_log_of 0 = 0 := by
  refine ⟨rfl, ?_, ?_, ?_⟩
  · exact Real.log_lt_log (by linarith) (by linarith)
  · constructor
    · intro h
      rcases Real.log_eq_zero.mp h with h1 | h1 | h1
      · linarith
      · linarith
      · linarith
    · intro h
      rw [cog_log_of, h]
      norm_num
  · rw [cog_log_of]
    norm_num

theorem cog_log_monotone_and_zero_witness :
    (0 : ℝ) ≤ 0 ∧ (0 : ℝ) < 1 ∧ (cog_log_of 0 = 0 ↔ (0 : ℝ) = 0) :=
  ⟨le_refl 0, zero_lt_one,
    (cog_log_monotone_and_zero 0 1 (le_refl 0) zero_lt_one).2.2.1⟩

/-- C6 counterexample: the source converts times with `int()` (truncation),
not `round()`.  At `end_time * sr = 5.9` truncation gives index 5 while
rounding gives 6, so the extracted segments differ. -/
theorem extract_segment_not_round :
    extract_segment [0, 1, 2, 3, 4, 5, 6] 0 (59 / 100) 10 ≠
      extract_segment_spec [0, 1, 2, 3, 4, 5, 6] 0 (59 / 100) 10 := by
  have h1 : extract_segment [0, 1, 2, 3, 4, 5, 6] 0 (59 / 100) 10 =
      [0, 1, 2, 3, 4] := by
    have hf : ⌊(59 / 100 * 10 : ℚ)⌋ = 5 := by norm_num
    simp [extract_segment, pyInt, hf]
  have h2 : extract_segment_spec [0, 1, 2, 3, 4, 5, 6] 0 (59 / 100) 10 =
      [0, 1, 2, 3, 4, 5] := by
    have hr : round (59 / 100 * 10 : ℚ) = 6 := by
      rw [round_eq]
      norm_num
    simp [extract_segment_spec, hr]
  rw [h1, h2]
  decide

/-- C6 (amended): for non-negative time-sample products the conversion is
truncation (`int(time * sr)`, i.e. the floor), and the segment is the
half-open sample range `[int(s*sr), int(e*sr))` of the signal. -/
theorem extract_segment_truncated_range (y : List ℚ) (s e sr : ℚ) (i : ℕ)
    (hs : 0 ≤ s * sr) (he : 0 ≤ e * sr) :
    pyInt (s * sr) = ⌊s * sr⌋ ∧
    pyInt (e * sr) = ⌊e * sr⌋ ∧
    (extract_segment y s e sr)[i]? =
      (if (pyInt (s * sr)).toNat + i < (pyInt (e * sr)).toNat
       then y[(pyInt (s * sr)).toNat + i]? else none) := by
  refine ⟨if_pos hs, if_pos he, ?_⟩
  simp only [extract_segment]
  rw [List.getElem?_drop, List.getElem?_take]

theorem extract_segment_truncated_range_witness :
    (0 ≤ (0 : ℚ) * 2) ∧ (0 ≤ (1 : ℚ) * 2) ∧
    (extract_segment [1, 2, 3] 0 1 2)[0]? =
      (if (pyInt ((0 : ℚ) * 2)).toNat + 0 < (pyInt ((1 : ℚ) * 2)).toNat
       then [1, 2, 3][(pyInt ((0 : ℚ) * 2)).toNat + 0]? else none) := by
  refine ⟨by norm_num, by norm_num, ?_⟩
  exact (extract_segment_truncated_range [1, 2, 3] 0 1 2 0
    (by norm_num) (by norm_num)).2.2

/-- C7: segments shorter than 2048 samples are safe — the window is clamped
to `min(2048, len(segment))`, hence equals the segment length; on a
zero-length input the contract transform returns an empty frame and an
empty frequency axis, and `band_limit` propagates the empty frame through
the mask to the inverse transform instead of failing. -/
theorem band_limit_short_segment_safe (coef : ℕ → ℕ → Cplx) (nFrames : ℕ)
    (inv : Frame → List ℚ) (segment : List ℚ) (sr lp : ℚ)
    (h : segment.length < 2048) :
    bl_window segment = segment.length ∧
    (∀ n : ℕ, forward_model coef nFrames [] n = [] ∧
      freq_axis_model sr [] n = []) ∧
    band_limit_segment ⟨forward_model coef nFrames, inv⟩ [] sr lp = inv [] := by
  refine ⟨min_eq_right (le_of_lt h), fun n => ⟨rfl, rfl⟩, ?_⟩
  simp [band_limit_segment, forward_model, mask_stft]

theorem band_limit_short_segment_safe_witness :
    ([1, 2, 3] : List ℚ).length < 2048 ∧
    bl_window [1, 2, 3] = ([1, 2, 3] : List ℚ).length := by
  have h : ([1, 2, 3] : List ℚ).length < 2048 := by decide
  exact ⟨h, (band_limit_short_segment_safe (fun _ _ => ((0 : ℚ), (0 : ℚ))) 1
    (fun _ => []) [1, 2, 3] 10 5 h).1⟩

/-- C8: intervals whose label is blank after stripping produce no feature
tuple, and each non-blank interval produces exactly one, in order. -/
theorem blank_labels_skipped (T : SpectralTransform)
    (harm : List ℚ → List ℚ) (wav_file : String) (y : List ℚ) (sr : ℚ)
    (intervals : List TgInterval) (min_freq max_freq lp_cutoff : ℚ) :
    extract_features T harm wav_file y sr intervals min_freq max_freq
        lp_cutoff =
      (intervals.filter (fun iv => !(pyStrip iv.text == ""))).map
        (compute_features T harm wav_file y sr min_freq max_freq
          lp_cutoff) ∧
    (extract_features T harm wav_file y sr intervals min_freq max_freq
        lp_cutoff).length =
      (intervals.filter (fun iv => !(pyStrip iv.text == ""))).length := by
  refine ⟨extract_features_eq_filter_map T harm wav_file y sr intervals
    min_freq max_freq lp_cutoff, ?_⟩
  rw [extract_features_eq_filter_map, List.length_map]

lemma participant_of_mem_extract_features {T : SpectralTransform}
    {harm : List ℚ → List ℚ} {wav_file : String} {y : List ℚ} {sr : ℚ}
    {intervals : List TgInterval} {min_freq max_freq lp_cutoff : ℚ}
    {t : FeatureTuple}
    (ht : t ∈ extract_features T harm wav_file y sr intervals min_freq
      max_freq lp_cutoff) : t.participant = participant_of wav_file := by
  rw [extract_features_eq_filter_map] at ht
  rcases List.mem_map.mp ht with ⟨iv, _, rfl⟩
  rfl

/-- C10: every tuple emitted for an audio file carries the file's base name
with the extension removed as its source identifier, so all tuples
originating from the same file share the same identifier. -/
theorem participant_identifier_shared (T : SpectralTransform)
    (harm : List ℚ → List ℚ) (wav_file : String) (y : List ℚ) (sr : ℚ)
    (intervals : List TgInterval) (min_freq max_freq lp_cutoff : ℚ)
    (t : FeatureTuple)
    (ht : t ∈ extract_features T harm wav_file y sr intervals min_freq
      max_freq lp_cutoff) :
    t.participant = participant_of wav_file ∧
    ∀ u ∈ extract_features T harm wav_file y sr intervals min_freq
      max_freq lp_cutoff, u.participant = t.participant := by
  refine ⟨participant_of_mem_extract_features ht, fun u hu => ?_⟩
  rw [participant_of_mem_extract_features hu,
    participant_of_mem_extract_features ht]

theorem participant_identifier_shared_witness :
    (compute_features trivialT id "dir/rec01.wav" [1, 2] 10 0 8000 500
        ⟨0, 1, "a"⟩ ∈
      extract_features trivialT id "dir/rec01.wav" [1, 2] 10 [⟨0, 1, "a"⟩]
        0 8000 500) ∧
    (compute_features trivialT id "dir/rec01.wav" [1, 2] 10 0 8000 500
        ⟨0, 1, "a"⟩).participant = participant_of "dir/rec01.wav" := by
  have hne : ¬ (pyStrip "a" = "") := by decide
  have hmem : compute_features trivialT id "dir/rec01.wav" [1, 2] 10 0 8000
      500 ⟨0, 1, "a"⟩ ∈
      extract_features trivialT id "dir/rec01.wav" [1, 2] 10 [⟨0, 1, "a"⟩]
        0 8000 500 := by
    rw [extract_features]
    simp only [List.filterMap_cons, List.filterMap_nil, if_neg hne]
    exact List.mem_singleton.mpr rfl
  exact ⟨hmem, (participant_identifier_shared trivialT id "dir/rec01.wav"
    [1, 2] 10 [⟨0, 1, "a"⟩] 0 8000 500 _ hmem).1⟩

lemma digits_length_le_of_lt_pow {m d : ℕ} (h : m < 10 ^ d) :
    (Nat.digits 10 m).length ≤ d := by
  rcases Nat.eq_zero_or_pos m with rfl | hm
  · simp
  · rw [Nat.digits_len 10 m (by norm_num) (Nat.pos_iff_ne_zero.mp hm)]
    have hlog := (Nat.lt_pow_iff_log_lt (by norm_num)
      (Nat.pos_iff_ne_zero.mp hm)).mp h
    omega

lemma fracDigits_length {d fp : ℕ} (h : fp < 10 ^ d) :
    (fracDigits d fp).length = d := by
  have hle : (Nat.digits 10 fp).length ≤ d := digits_length_le_of_lt_pow h
  simp [fracDigits, Nat.sub_add_cancel hle]

lemma foldl_append_rowString (rows : List FeatureRow) (init : String) :
    rows.foldl (fun acc r => acc ++ rowString r) init =
      init ++ concatRows rows := by
  induction rows generalizing init with
  | nil => simp [concatRows]
  | cons r rs ih =>
    simp only [List.foldl_cons, concatRows, List.foldr_cons]
    rw [ih (init ++ rowString r), String.append_assoc]
    rfl

/-- C9: the persisted output is the eight-column tab-separated header
followed by one data row per feature tuple; each data row is the eight
tab-separated fields in order, and every numeric field carries exactly its
prescribed number of decimal digits (intensity/hnr 1, duration/zcr 4,
cog 2, cog_log 3). -/
theorem output_header_rows_and_precision (rows : List FeatureRow) :
    process_output rows = headerLine ++ concatRows rows ∧
    headerLine = String.intercalate "\t"
      ["participant", "word", "intensity", "hnr", "duration", "zcr", "cog",
        "cog_log\n"] ∧
    (rows.map rowString).length = rows.length ∧
    (∀ r : FeatureRow, rowString r =
      r.participant ++ "\t" ++ r.word ++ "\t" ++
        formatFixed r.intensity 1 ++ "\t" ++ formatFixed r.hnr 1 ++ "\t" ++
        formatFixed r.duration 4 ++ "\t" ++ formatFixed r.zcr 4 ++ "\t" ++
        formatFixed r.cog 2 ++ "\t" ++ formatFixed r.cog_log 3 ++ "\n") ∧
    (∀ q : ℚ, ∀ d : ℕ,
      (fracDigits d ((round (q * (10 : ℚ) ^ d)).natAbs % 10 ^ d)).length
        = d) := by
  refine ⟨foldl_append_rowString rows headerLine, by decide,
    List.length_map _ _, fun r => rfl, fun q d => ?_⟩
  exact fracDigits_length (Nat.mod_lt _ (Nat.pos_pow_of_pos d (by norm_num)))
